import Mathlib

/-!
Verification of the rust-runner ephemeral build-environment synthesizer
(`src/main.rs`).  Strings from the source program are modelled as `List Char`
(`Str`); whitespace and word-character classes are modelled over ASCII, which
is the fragment the recognized directive and import syntax uses.  The
side-effecting scaffolding pipeline (`main`, `init_project`, `run_project`)
is modelled as a trace-producing function over an oracle that fixes the
outcome of every external-process invocation and filesystem operation.
-/

/-- Character strings of the scanned program text, modelled as lists of
characters so that the splitting primitives of the source are fully
transparent to proofs. -/
abbrev Str := List Char

/-- ASCII whitespace, modelling `char::is_whitespace` and the regex class
backslash-s on the ASCII fragment. -/
def isWS (c : Char) : Bool :=
  c = ' ' || c = '\t' || c = '\n' || c = '\r' || c = '\x0b' || c = '\x0c'

/-- ASCII word character, modelling the regex class of word characters and
digits used by the import pattern. -/
def isWordChar (c : Char) : Bool :=
  c.isAlphanum || c = '_'

/-- Model of Rust `str::split(sep)`: splits at every separator, keeping empty
fragments; the empty string yields one empty fragment. -/
def splitOnChar (sep : Char) : Str → List Str
  | [] => [[]]
  | c :: rest =>
    if c = sep then [] :: splitOnChar sep rest
    else
      match splitOnChar sep rest with
      | [] => [[c]]
      | g :: gs => (c :: g) :: gs

/-- Model of Rust `str::splitn(2, sep)` followed by taking the two items:
the part before the first separator, and `some` remainder when a separator
exists (`none` when the string has no separator). -/
def splitn2 (sep : Char) : Str → Str × Option Str
  | [] => ([], none)
  | c :: rest =>
    if c = sep then ([], some rest)
    else
      let p := splitn2 sep rest
      (c :: p.1, p.2)

/-- Boolean prefix test, modelling `str::starts_with`. -/
def startsWith : Str → Str → Bool
  | [], _ => true
  | _ :: _, [] => false
  | p :: ps, c :: cs => p = c && startsWith ps cs

/-- Model of `str::trim_start` (ASCII whitespace). -/
def rustTrimStart (s : Str) : Str := s.dropWhile isWS

/-- Model of `str::trim` (ASCII whitespace). -/
def rustTrim (s : Str) : Str :=
  ((s.dropWhile isWS).reverse.dropWhile isWS).reverse

/-- Strip at most one trailing carriage return, as `str::lines` does for a
line that was terminated by a carriage return plus line feed. -/
def stripCR (l : Str) : Str :=
  match l.getLast? with
  | some c => if c = '\r' then l.dropLast else l
  | none => l

/-- Model of Rust `str::lines`: split on line feed; every segment that was
terminated by a line feed has one trailing carriage return stripped; a final
unterminated segment is kept verbatim, and a trailing empty segment produced
by a final line feed is dropped. -/
def rustLines (s : Str) : List Str :=
  let segs := splitOnChar '\n' s
  let front := segs.dropLast.map stripCR
  match segs.getLast? with
  | some [] => front
  | some seg => front ++ [seg]
  | none => front

/-- The recognized option names of the directive scanner: `OptionType` in
the source, whose only variant is `Toolchain`. -/
inductive OptionType
  | toolchain
deriving DecidableEq

/-- The literal option name recognized by `OptionType::parse`. -/
def strToolchain : Str := "toolchain".data

/-- Model of `OptionType::parse`: only the name `toolchain` is recognized. -/
def OptionType.parse (name : Str) : Option OptionType :=
  if name = strToolchain then some OptionType.toolchain else none

/-- The option mapping built by `gather_options` (`HashMap<OptionType,
String>` in the source), modelled as a function from the (finite) key type
to an optional value. -/
def OptionsMap := OptionType → Option Str

/-- The empty option mapping. -/
def OptionsMap.empty : OptionsMap := fun _ => none

/-- Model of `HashMap::insert`: later insertions overwrite earlier values at
the same key. -/
def insertOpt (m : OptionsMap) (k : OptionType) (v : Str) : OptionsMap :=
  fun q => if q = k then some v else m q

/-- Error-message prefix of the malformed-fragment failure in
`gather_options`. -/
def strInvalidOption : Str := "invalid option string: ".data

/-- Error-message prefix of the unrecognized-name failure in
`gather_options`. -/
def strUnknownOption : Str := "unknown option: ".data

/-- Processing of a single `name=value` fragment inside the loop body of
`gather_options`: split on the first equals sign; a missing equals sign is
the invalid-option-string failure; an unrecognized name is the
unknown-option failure; otherwise the value is inserted. -/
def processFragment (options : OptionsMap) (frag : Str) : Except Str OptionsMap :=
  match splitn2 '=' frag with
  | (_, none) => Except.error (strInvalidOption ++ frag)
  | (name, some value) =>
    match OptionType.parse name with
    | some t => Except.ok (insertOpt options t value)
    | none => Except.error (strUnknownOption ++ name)

/-- Processing of the semicolon-separated fragments of one directive line,
left to right, stopping at the first failing fragment. -/
def processFragments (options : OptionsMap) : List Str → Except Str OptionsMap
  | [] => Except.ok options
  | f :: fs =>
    match processFragment options f with
    | Except.error e => Except.error e
    | Except.ok m => processFragments m fs

/-- The comment marker `//`. -/
def strSlashSlash : Str := "//".data

/-- The directive marker `rust-runner:`. -/
def strMarker : Str := "rust-runner:".data

/-- Model of the directive-line regular expression
`^\s*//\s*rust-runner:\s*(?P<option>.*)$`: optional leading whitespace, the
comment marker, optional whitespace, the directive marker, optional
whitespace, then the captured option string (the rest of the line). -/
def matchOptionComment (line : Str) : Option Str :=
  let cs := line.dropWhile isWS
  if startsWith strSlashSlash cs then
    let cs2 := (cs.drop 2).dropWhile isWS
    if startsWith strMarker cs2 then
      some ((cs2.drop 12).dropWhile isWS)
    else none
  else none

/-- The line loop of `Context::gather_options` over the list of lines: a
blank line is skipped; the first line not starting (after leading
whitespace) with the comment marker stops the scan with the options
gathered so far; a comment line not matching the directive pattern is
skipped; a matching line has its captured option string split on semicolons
and each fragment processed. -/
def gatherLoop (options : OptionsMap) : List Str → Except Str OptionsMap
  | [] => Except.ok options
  | line :: rest =>
    if rustTrim line = [] then gatherLoop options rest
    else if startsWith strSlashSlash (rustTrimStart line) = false then
      Except.ok options
    else
      match matchOptionComment line with
      | none => gatherLoop options rest
      | some opt =>
        match processFragments options (splitOnChar ';' opt) with
        | Except.error e => Except.error e
        | Except.ok m => gatherLoop m rest

/-- The line loop of `gather_options` started from the empty mapping. -/
def gatherOptionsLines (lines : List Str) : Except Str OptionsMap :=
  gatherLoop OptionsMap.empty lines

/-- Model of `Context::gather_options`: run the line loop over the lines of
the content. -/
def gather_options (content : Str) : Except Str OptionsMap :=
  gatherOptionsLines (rustLines content)

/-- The default toolchain sentinel. -/
def strStable : Str := "stable".data

/-- Model of `Context::parse_toolchain`: the gathered toolchain value, or
the sentinel `stable` when absent. -/
def parse_toolchain (options : OptionsMap) : Str :=
  (options OptionType.toolchain).getD strStable

/-- Model of the import regular expression
`^\s*use\s+(?P<crate>[\w\d]+)`: optional leading whitespace, the keyword
`use`, at least one whitespace character, then the captured nonempty run of
word characters. -/
def matchUse (line : Str) : Option Str :=
  let cs := line.dropWhile isWS
  if startsWith ("use".data) cs then
    match cs.drop 3 with
    | [] => none
    | c :: rest =>
      if isWS c then
        let ident := ((c :: rest).dropWhile isWS).takeWhile isWordChar
        if ident = [] then none else some ident
      else none
  else none

/-- The four reserved names removed from the import set. -/
def strStd : Str := "std".data

/-- Reserved name for the current crate root. -/
def strCrate : Str := "crate".data

/-- Reserved name for the current module. -/
def strSelf : Str := "self".data

/-- Reserved name for the parent module. -/
def strSuper : Str := "super".data

/-- Model of `Context::parse_imports`: collect the captured identifier of
every line matching the import pattern into a set, then remove the four
reserved names.  The function is total: dependency scanning never fails. -/
def parse_imports (content : Str) : Finset Str :=
  let s : Finset Str :=
    (rustLines content).foldl
      (fun set line =>
        match matchUse line with
        | some ident => insert ident set
        | none => set)
      ∅
  (((s.erase strStd).erase strCrate).erase strSelf).erase strSuper

/-- Error-or-success view of an `Except`. -/
def isErr {ε α : Type} : Except ε α → Bool
  | Except.error _ => true
  | Except.ok _ => false

/-- A fragment of a directive line is bad when it lacks an equals separator
or its name is outside the recognized set; these are exactly the two
failure cases of the fragment loop of `gather_options`. -/
def badFragment (frag : Str) : Bool :=
  match splitn2 '=' frag with
  | (_, none) => true
  | (name, some _) => (OptionType.parse name).isNone

/-- The captured option strings of the matched directive lines of the
leading comment block, in file order, following the same skip/stop
discipline as the line loop of `gather_options`. -/
def leadingDirectives : List Str → List Str
  | [] => []
  | line :: rest =>
    if rustTrim line = [] then leadingDirectives rest
    else if startsWith strSlashSlash (rustTrimStart line) = false then []
    else
      match matchOptionComment line with
      | none => leadingDirectives rest
      | some opt => opt :: leadingDirectives rest

/-- All semicolon-separated fragments of the leading directive lines, in
file order. -/
def allFrags (lines : List Str) : List Str :=
  (leadingDirectives lines).flatMap (fun opt => splitOnChar ';' opt)

/-- Folding one fragment into the value recorded for option `t`, starting
from a previous value: a well-formed fragment naming `t` overwrites the
value, any other fragment leaves it. -/
def fragStep (t : OptionType) (acc : Option Str) (frag : Str) : Option Str :=
  match splitn2 '=' frag with
  | (_, none) => acc
  | (name, some v) =>
    match OptionType.parse name with
    | some q => if t = q then some v else acc
    | none => acc

/-- The last value assigned to option `t` by a fragment list, in order
(`none` when no fragment assigns it). -/
def lastValue (t : OptionType) (frags : List Str) : Option Str :=
  frags.foldl (fragStep t) none

/-! ## Effect model of the scaffolding and run pipeline

`init_project`, `run_project` and the tail of `main` after the working
directory switch perform external-process invocations and filesystem
writes.  They are modelled as functions from an `Oracle` — which fixes the
outcome of every such operation — to a pair of the list of performed
operations (the trace, one event per attempted operation, in order) and the
returned `Fallible` result. -/

/-- An opaque operating-system-level error (an `io::Error` from spawning a
process or touching the filesystem), identified by a code. -/
inductive OsError
  | code (n : Nat)
deriving DecidableEq

/-- The error type of the modelled `Fallible` results: either a message
produced by an explicit failure in the program, or a propagated
operating-system error. -/
inductive RErr
  | failMsg (s : String)
  | os (e : OsError)
deriving DecidableEq

/-- The outcome of `Command::status()`: an operating-system error when the
process could not be spawned, otherwise the success bit of its exit
status. -/
abbrev CmdResult := Except OsError Bool

/-- One attempted external operation of the pipeline, recorded in the
trace at the moment the operation is invoked. -/
inductive Event
  | cargoInit
  | createCargoDir
  | writeCargoConfig (sccachePath : String)
  | removeMain
  | createMain
  | writeMain (content : String)
  | diagAdding (dep : String)
  | cargoAdd (dep : String)
  | diagAddFailed (dep : String)
  | writeToolchain (v : String)
  | cargoRun
  | restoreDir
deriving DecidableEq

/-- The outcomes of every external operation the pipeline may attempt. -/
structure Oracle where
  initStatus : CmdResult
  sccache : Option String
  createDirOk : Except OsError Unit
  writeConfigOk : Except OsError Unit
  removeMainOk : Except OsError Unit
  createMainOk : Except OsError Unit
  writeMainOk : Except OsError Unit
  addStatus : String → CmdResult
  writeToolchainOk : Except OsError Unit
  runStatus : CmdResult
  restoreOk : Except OsError Unit

/-- A trace-and-result pair. -/
abbrev TraceRes := List Event × Except RErr Unit

/-- Sequencing of two trace-producing computations: the second runs only
when the first succeeds; traces accumulate. -/
def seqT (x y : TraceRes) : TraceRes :=
  match x with
  | (tr, Except.error e) => (tr, Except.error e)
  | (tr, Except.ok _) => (tr ++ y.1, y.2)

/-- The `cargo init` step of `init_project`: a spawn error propagates, a
non-success exit status is the fatal init failure. -/
def initStep (o : Oracle) : TraceRes :=
  match o.initStatus with
  | Except.error e => ([Event.cargoInit], Except.error (RErr.os e))
  | Except.ok true => ([Event.cargoInit], Except.ok ())
  | Except.ok false =>
    ([Event.cargoInit], Except.error (RErr.failMsg "failed to init cargo project."))

/-- The optional build-cache wiring of `init_project`: when the accelerator
binary is found, create the configuration directory and write the wrapper
configuration, each fallible; when absent, do nothing. -/
def sccacheStep (o : Oracle) : TraceRes :=
  match o.sccache with
  | none => ([], Except.ok ())
  | some path =>
    match o.createDirOk with
    | Except.error e => ([Event.createCargoDir], Except.error (RErr.os e))
    | Except.ok _ =>
      match o.writeConfigOk with
      | Except.error e =>
        ([Event.createCargoDir, Event.writeCargoConfig path], Except.error (RErr.os e))
      | Except.ok _ =>
        ([Event.createCargoDir, Event.writeCargoConfig path], Except.ok ())

/-- The entry-point replacement of `init_project`: remove the generated
source file, create it anew and write the original content, each
fallible. -/
def replaceMainStep (o : Oracle) (content : String) : TraceRes :=
  match o.removeMainOk with
  | Except.error e => ([Event.removeMain], Except.error (RErr.os e))
  | Except.ok _ =>
    match o.createMainOk with
    | Except.error e => ([Event.removeMain, Event.createMain], Except.error (RErr.os e))
    | Except.ok _ =>
      match o.writeMainOk with
      | Except.error e =>
        ([Event.removeMain, Event.createMain, Event.writeMain content],
         Except.error (RErr.os e))
      | Except.ok _ =>
        ([Event.removeMain, Event.createMain, Event.writeMain content], Except.ok ())

/-- The dependency-add loop of `init_project`, over the imports in
iteration order: announce each dependency, invoke the dependency-add step;
a spawn error propagates immediately; a non-success exit status emits the
failure diagnostic and continues with the next dependency. -/
def add_deps (o : Oracle) : List String → TraceRes
  | [] => ([], Except.ok ())
  | dep :: rest =>
    match o.addStatus dep with
    | Except.error e =>
      ([Event.diagAdding dep, Event.cargoAdd dep], Except.error (RErr.os e))
    | Except.ok true =>
      let p := add_deps o rest
      (Event.diagAdding dep :: Event.cargoAdd dep :: p.1, p.2)
    | Except.ok false =>
      let p := add_deps o rest
      (Event.diagAdding dep :: Event.cargoAdd dep :: Event.diagAddFailed dep :: p.1, p.2)

/-- The toolchain pin-file write at the end of `init_project`. -/
def pinStep (o : Oracle) (toolchain : String) : TraceRes :=
  match o.writeToolchainOk with
  | Except.error e => ([Event.writeToolchain toolchain], Except.error (RErr.os e))
  | Except.ok _ => ([Event.writeToolchain toolchain], Except.ok ())

/-- Model of `init_project`: cargo init, optional build-cache wiring,
entry-point replacement, the dependency-add loop, then the toolchain
pin-file write, each step short-circuiting on failure. -/
def init_project (o : Oracle) (content toolchain : String) (imports : List String) : TraceRes :=
  seqT (initStep o)
    (seqT (sccacheStep o)
      (seqT (replaceMainStep o content)
        (seqT (add_deps o imports) (pinStep o toolchain))))

/-- Model of `run_project`: invoke the build-and-run step; a spawn error
propagates, a non-success exit status is the fatal run failure. -/
def run_project (o : Oracle) : TraceRes :=
  match o.runStatus with
  | Except.error e => ([Event.cargoRun], Except.error (RErr.os e))
  | Except.ok true => ([Event.cargoRun], Except.ok ())
  | Except.ok false =>
    ([Event.cargoRun], Except.error (RErr.failMsg "failed to run the program."))

/-- Model of `init_project(..).and_then(run_project)` in `main`. -/
def initAndRun (o : Oracle) (content toolchain : String) (imports : List String) : TraceRes :=
  seqT (init_project o content toolchain imports) (run_project o)

/-- Model of the tail of `main` after the working directory has been
switched into the temporary directory: the scaffolding-and-run result is
captured, the original working directory is restored unconditionally, and
the captured result is returned only after the restoration (a failing
restoration surfaces its own error instead). -/
def mainAfterEnter (o : Oracle) (content toolchain : String)
    (imports : List String) : TraceRes :=
  let p := initAndRun o content toolchain imports
  match o.restoreOk with
  | Except.error e => (p.1 ++ [Event.restoreDir], Except.error (RErr.os e))
  | Except.ok _ => (p.1 ++ [Event.restoreDir], p.2)

/-- Whether every dependency-add invocation of a trace is preceded by some
toolchain pin-file write; the flag records whether a pin write has been
seen. -/
def pinBeforeAddsAux : Bool → List Event → Bool
  | _, [] => true
  | _, Event.writeToolchain _ :: r => pinBeforeAddsAux true r
  | seen, Event.cargoAdd _ :: r => seen && pinBeforeAddsAux seen r
  | seen, _ :: r => pinBeforeAddsAux seen r

/-- Whether the toolchain pin-file write precedes every dependency-add
invocation of a trace. -/
def pinBeforeAdds (tr : List Event) : Bool := pinBeforeAddsAux false tr

/-- Whether no dependency-add invocation follows the first toolchain
pin-file write of a trace. -/
def noAddAfterPin : List Event → Bool
  | [] => true
  | Event.writeToolchain _ :: r =>
    r.all (fun e =>
      match e with
      | Event.cargoAdd _ => false
      | _ => true)
  | _ :: r => noAddAfterPin r
/-- The untrimmed name captured from a fragment with a space before the
equals sign. -/
def strToolchainSpace : Str := "toolchain ".data

/-- An oracle on which every external operation succeeds. -/
def oracleAllOk : Oracle where
  initStatus := Except.ok true
  sccache := none
  createDirOk := Except.ok ()
  writeConfigOk := Except.ok ()
  removeMainOk := Except.ok ()
  createMainOk := Except.ok ()
  writeMainOk := Except.ok ()
  addStatus := fun _ => Except.ok true
  writeToolchainOk := Except.ok ()
  runStatus := Except.ok true
  restoreOk := Except.ok ()

/-- An oracle on which the project-initialization step exits with a
non-success status. -/
def oracleInitFails : Oracle :=
  { oracleAllOk with initStatus := Except.ok false }

/-- An oracle on which the dependency-add invocation for `bad` exits with
a non-success status and every other operation succeeds. -/
def oracleOneAddFails : Oracle :=
  { oracleAllOk with
    addStatus := fun d => if d = "bad" then Except.ok false else Except.ok true }

/-- An oracle on which spawning the dependency-add process for `boom`
fails with an operating-system error and every other operation succeeds. -/
def oracleSpawnErr : Oracle :=
  { oracleAllOk with
    addStatus := fun x =>
      if x = "boom" then Except.error (OsError.code 5) else Except.ok true }


theorem processFragments_isErr_iff (frags : List Str) :
    ∀ opts, isErr (processFragments opts frags) = true ↔ ∃ f ∈ frags, badFragment f = true := by
  induction frags with
  | nil => intro opts; simp [processFragments, isErr]
  | cons f fs ih =>
    intro opts
    rcases hs : splitn2 '=' f with ⟨name, val⟩
    cases val with
    | none =>
      simp [processFragments, processFragment, hs, isErr, badFragment]
    | some v =>
      cases hp : OptionType.parse name with
      | none =>
        simp [processFragments, processFragment, hs, hp, isErr, badFragment]
      | some t =>
        simp [processFragments, processFragment, hs, hp, ih, badFragment]

theorem processFragments_error_msg (frags : List Str) :
    ∀ opts e, processFragments opts frags = Except.error e →
      (∃ s, e = strInvalidOption ++ s) ∨ (∃ s, e = strUnknownOption ++ s) := by
  induction frags with
  | nil => intro opts e h; simp [processFragments] at h
  | cons f fs ih =>
    intro opts e h
    rcases hs : splitn2 '=' f with ⟨name, val⟩
    cases val with
    | none =>
      simp [processFragments, processFragment, hs] at h
      exact Or.inl ⟨f, h.symm⟩
    | some v =>
      cases hp : OptionType.parse name with
      | none =>
        simp [processFragments, processFragment, hs, hp] at h
        exact Or.inr ⟨name, h.symm⟩
      | some t =>
        simp [processFragments, processFragment, hs, hp] at h
        exact ih _ _ h

theorem allFrags_nil : allFrags [] = [] := rfl

theorem allFrags_blank {line : Str} (rest : List Str) (hb : rustTrim line = []) :
    allFrags (line :: rest) = allFrags rest := by
  simp [allFrags, leadingDirectives, hb]

theorem allFrags_stop {line : Str} (rest : List Str) (hb : ¬ rustTrim line = [])
    (hc : startsWith strSlashSlash (rustTrimStart line) = false) :
    allFrags (line :: rest) = [] := by
  simp [allFrags, leadingDirectives, hb, hc]

theorem allFrags_nomatch {line : Str} (rest : List Str) (hb : ¬ rustTrim line = [])
    (hc : ¬ startsWith strSlashSlash (rustTrimStart line) = false)
    (hm : matchOptionComment line = none) :
    allFrags (line :: rest) = allFrags rest := by
  simp [allFrags, leadingDirectives, hb, hc, hm]

theorem allFrags_dir {line opt : Str} (rest : List Str) (hb : ¬ rustTrim line = [])
    (hc : ¬ startsWith strSlashSlash (rustTrimStart line) = false)
    (hm : matchOptionComment line = some opt) :
    allFrags (line :: rest) = splitOnChar ';' opt ++ allFrags rest := by
  simp [allFrags, leadingDirectives, hb, hc, hm]

theorem gatherLoop_isErr_iff (lines : List Str) :
    ∀ opts, isErr (gatherLoop opts lines) = true ↔
      ∃ f ∈ allFrags lines, badFragment f = true := by
  induction lines with
  | nil => intro opts; simp [gatherLoop, allFrags_nil, isErr]
  | cons line rest ih =>
    intro opts
    by_cases hb : rustTrim line = []
    · rw [allFrags_blank rest hb]
      simp only [gatherLoop, hb, if_true]
      exact ih opts
    · by_cases hc : startsWith strSlashSlash (rustTrimStart line) = false
      · rw [allFrags_stop rest hb hc]
        simp [gatherLoop, hb, hc, isErr]
      · cases hm : matchOptionComment line with
        | none =>
          rw [allFrags_nomatch rest hb hc hm]
          have hred : gatherLoop opts (line :: rest) = gatherLoop opts rest := by
            simp [gatherLoop, hb, hc, hm]
          rw [hred]
          exact ih opts
        | some opt =>
          rw [allFrags_dir rest hb hc hm]
          cases hpf : processFragments opts (splitOnChar ';' opt) with
          | error e =>
            have herr : ∃ f ∈ splitOnChar ';' opt, badFragment f = true := by
              apply (processFragments_isErr_iff _ opts).mp
              simp [hpf, isErr]
            have hred : gatherLoop opts (line :: rest) = Except.error e := by
              simp [gatherLoop, hb, hc, hm, hpf]
            rw [hred]
            simp only [isErr]
            constructor
            · intro _
              rcases herr with ⟨f, hf, hbad⟩
              exact ⟨f, List.mem_append_left _ hf, hbad⟩
            · intro _; trivial
          | ok m =>
            have hgood : ∀ f ∈ splitOnChar ';' opt, badFragment f = false := by
              intro f hf
              by_contra hbad
              have h2 : isErr (processFragments opts (splitOnChar ';' opt)) = true :=
                (processFragments_isErr_iff (splitOnChar ';' opt) opts).mpr
                  ⟨f, hf, by revert hbad; cases badFragment f <;> simp⟩
              rw [hpf] at h2
              simp [isErr] at h2
            have hred : gatherLoop opts (line :: rest) = gatherLoop m rest := by
              simp [gatherLoop, hb, hc, hm, hpf]
            rw [hred]
            constructor
            · intro h
              rcases (ih m).mp h with ⟨f, hf, hbad⟩
              exact ⟨f, List.mem_append_right _ hf, hbad⟩
            · rintro ⟨f, hf, hbad⟩
              rcases List.mem_append.mp hf with hf1 | hf2
              · rw [hgood f hf1] at hbad; exact absurd hbad (by simp)
              · exact (ih m).mpr ⟨f, hf2, hbad⟩

theorem gatherLoop_error_msg (lines : List Str) :
    ∀ opts e, gatherLoop opts lines = Except.error e →
      (∃ s, e = strInvalidOption ++ s) ∨ (∃ s, e = strUnknownOption ++ s) := by
  induction lines with
  | nil => intro opts e h; simp [gatherLoop] at h
  | cons line rest ih =>
    intro opts e h
    by_cases hb : rustTrim line = []
    · simp only [gatherLoop, hb, if_true] at h
      exact ih _ _ h
    · by_cases hc : startsWith strSlashSlash (rustTrimStart line) = false
      · simp [gatherLoop, hb, hc] at h
      · cases hm : matchOptionComment line with
        | none =>
          have hred : gatherLoop opts (line :: rest) = gatherLoop opts rest := by
            simp [gatherLoop, hb, hc, hm]
          rw [hred] at h
          exact ih _ _ h
        | some opt =>
          cases hpf : processFragments opts (splitOnChar ';' opt) with
          | error e2 =>
            have hred : gatherLoop opts (line :: rest) = Except.error e2 := by
              simp [gatherLoop, hb, hc, hm, hpf]
            rw [hred] at h
            cases h
            exact processFragments_error_msg _ _ _ hpf
          | ok m =>
            have hred : gatherLoop opts (line :: rest) = gatherLoop m rest := by
              simp [gatherLoop, hb, hc, hm, hpf]
            rw [hred] at h
            exact ih _ _ h

/-- Claim C3: directive gathering fails if and only if some fragment of a
matched directive line in the leading comment block lacks an equals
separator or names an unrecognized option (the recognized set having
`toolchain` as its only member, by definition of `OptionType.parse`), and
every such failure carries the invalid-option-string or unknown-option
message; surrounding valid fragments do not prevent the error. -/
theorem c3_gather_options_error_iff (content : Str) :
    (isErr (gather_options content) = true ↔
      ∃ opt ∈ leadingDirectives (rustLines content),
        ∃ frag ∈ splitOnChar ';' opt, badFragment frag = true) ∧
    (∀ e, gather_options content = Except.error e →
      (∃ s, e = strInvalidOption ++ s) ∨ (∃ s, e = strUnknownOption ++ s)) := by
  constructor
  · rw [gather_options, gatherOptionsLines, gatherLoop_isErr_iff]
    simp [allFrags, List.mem_flatMap]
    constructor
    · rintro ⟨f, ⟨opt, ho, hf⟩, hbad⟩
      exact ⟨opt, ho, f, hf, hbad⟩
    · rintro ⟨opt, ho, f, hf, hbad⟩
      exact ⟨f, ⟨opt, ho, hf⟩, hbad⟩
  · intro e h
    exact gatherLoop_error_msg _ _ _ h

theorem processFragments_ok_fold (frags : List Str) :
    ∀ opts, (∀ f ∈ frags, badFragment f = false) →
      processFragments opts frags = Except.ok (fun t => frags.foldl (fragStep t) (opts t)) := by
  induction frags with
  | nil => intro opts _; simp [processFragments]
  | cons f fs ih =>
    intro opts hgood
    rcases hs : splitn2 '=' f with ⟨name, val⟩
    cases val with
    | none =>
      have : badFragment f = true := by simp [badFragment, hs]
      rw [hgood f (List.mem_cons_self f fs)] at this
      cases this
    | some v =>
      cases hp : OptionType.parse name with
      | none =>
        have : badFragment f = true := by simp [badFragment, hs, hp]
        rw [hgood f (List.mem_cons_self f fs)] at this
        cases this
      | some q =>
        have hred : processFragments opts (f :: fs) = processFragments (insertOpt opts q v) fs := by
          simp [processFragments, processFragment, hs, hp]
        rw [hred, ih _ (fun g hg => hgood g (List.mem_cons_of_mem f hg))]
        congr 1
        funext t
        have hstep : fragStep t (opts t) f = insertOpt opts q v t := by
          simp [fragStep, hs, hp, insertOpt]
        simp [List.foldl_cons, hstep]

theorem gatherLoop_ok_fold (lines : List Str) :
    ∀ opts, (∀ f ∈ allFrags lines, badFragment f = false) →
      gatherLoop opts lines = Except.ok (fun t => (allFrags lines).foldl (fragStep t) (opts t)) := by
  induction lines with
  | nil => intro opts _; simp [gatherLoop, allFrags_nil]
  | cons line rest ih =>
    intro opts hgood
    by_cases hb : rustTrim line = []
    · rw [allFrags_blank rest hb] at hgood ⊢
      simp only [gatherLoop, hb, if_true]
      exact ih opts hgood
    · by_cases hc : startsWith strSlashSlash (rustTrimStart line) = false
      · rw [allFrags_stop rest hb hc]
        simp [gatherLoop, hb, hc]
      · cases hm : matchOptionComment line with
        | none =>
          rw [allFrags_nomatch rest hb hc hm] at hgood ⊢
          have hred : gatherLoop opts (line :: rest) = gatherLoop opts rest := by
            simp [gatherLoop, hb, hc, hm]
          rw [hred]
          exact ih opts hgood
        | some opt =>
          rw [allFrags_dir rest hb hc hm] at hgood ⊢
          have hgood1 : ∀ f ∈ splitOnChar ';' opt, badFragment f = false :=
            fun f hf => hgood f (List.mem_append_left _ hf)
          have hgood2 : ∀ f ∈ allFrags rest, badFragment f = false :=
            fun f hf => hgood f (List.mem_append_right _ hf)
          have hpf := processFragments_ok_fold (splitOnChar ';' opt) opts hgood1
          have hred : gatherLoop opts (line :: rest) =
              gatherLoop (fun t => (splitOnChar ';' opt).foldl (fragStep t) (opts t)) rest := by
            simp [gatherLoop, hb, hc, hm, hpf]
          rw [hred, ih _ hgood2]
          congr 1
          funext t
          simp [List.foldl_append]

/-- Claim C7: when every fragment of the leading directive lines is a
well-formed `name=value` fragment with a recognized name, gathering
succeeds and the resulting mapping sends each option name to the value of
the last fragment assigning it, in file order (and to nothing when no
fragment assigns it): later duplicates override earlier ones. -/
theorem c7_gather_options_last_write_wins (content : Str)
    (h : ∀ frag ∈ allFrags (rustLines content), badFragment frag = false) :
    gather_options content =
      Except.ok (fun t => lastValue t (allFrags (rustLines content))) := by
  rw [gather_options, gatherOptionsLines, gatherLoop_ok_fold _ _ h]
  rfl

theorem processFragments_ok_preserve (frags : List Str) (t : OptionType) :
    ∀ opts m, processFragments opts frags = Except.ok m →
      (∀ f ∈ frags, OptionType.parse (splitn2 '=' f).1 ≠ some t) →
      m t = opts t := by
  induction frags with
  | nil => intro opts m h _; cases h; rfl
  | cons f fs ih =>
    intro opts m h hno
    rcases hs : splitn2 '=' f with ⟨name, val⟩
    cases val with
    | none => simp [processFragments, processFragment, hs] at h
    | some v =>
      cases hp : OptionType.parse name with
      | none => simp [processFragments, processFragment, hs, hp] at h
      | some q =>
        exfalso
        apply hno f (List.mem_cons_self f fs)
        rw [hs]
        show OptionType.parse name = some t
        rw [hp]

theorem gatherLoop_ok_preserve (lines : List Str) (t : OptionType) :
    ∀ opts m, gatherLoop opts lines = Except.ok m →
      (∀ f ∈ allFrags lines, OptionType.parse (splitn2 '=' f).1 ≠ some t) →
      m t = opts t := by
  induction lines with
  | nil => intro opts m h _; cases h; rfl
  | cons line rest ih =>
    intro opts m h hno
    by_cases hb : rustTrim line = []
    · rw [allFrags_blank rest hb] at hno
      simp only [gatherLoop, hb, if_true] at h
      exact ih _ _ h hno
    · by_cases hc : startsWith strSlashSlash (rustTrimStart line) = false
      · have hred : gatherLoop opts (line :: rest) = Except.ok opts := by
          simp [gatherLoop, hb, hc]
        rw [hred] at h
        cases h; rfl
      · cases hm : matchOptionComment line with
        | none =>
          rw [allFrags_nomatch rest hb hc hm] at hno
          have hred : gatherLoop opts (line :: rest) = gatherLoop opts rest := by
            simp [gatherLoop, hb, hc, hm]
          rw [hred] at h
          exact ih _ _ h hno
        | some opt =>
          rw [allFrags_dir rest hb hc hm] at hno
          cases hpf : processFragments opts (splitOnChar ';' opt) with
          | error e =>
            have hred : gatherLoop opts (line :: rest) = Except.error e := by
              simp [gatherLoop, hb, hc, hm, hpf]
            rw [hred] at h
            cases h
          | ok m2 =>
            have hred : gatherLoop opts (line :: rest) = gatherLoop m2 rest := by
              simp [gatherLoop, hb, hc, hm, hpf]
            rw [hred] at h
            have h1 := ih _ _ h (fun g hg => hno g (List.mem_append_right _ hg))
            have h2 := processFragments_ok_preserve _ t _ _ hpf
              (fun g hg => hno g (List.mem_append_left _ hg))
            rw [h1, h2]

/-- Claim C8: when no fragment of the leading directive lines names the
toolchain option (in particular when the text has no leading comment block
at all), a successful gathering leaves the toolchain entry unset and the
resolved toolchain value is the sentinel `stable`. -/
theorem c8_toolchain_defaults_to_stable (content : Str) (m : OptionsMap)
    (h : ∀ frag ∈ allFrags (rustLines content),
      OptionType.parse (splitn2 '=' frag).1 ≠ some OptionType.toolchain)
    (hm : gather_options content = Except.ok m) :
    parse_toolchain m = strStable := by
  rw [gather_options, gatherOptionsLines] at hm
  have := gatherLoop_ok_preserve _ OptionType.toolchain _ _ hm h
  rw [parse_toolchain, this]
  rfl

theorem gatherLoop_stop_indep (l1 : List Str) {line : Str} (post : List Str)
    (hb : ¬ rustTrim line = [])
    (hc : startsWith strSlashSlash (rustTrimStart line) = false) :
    ∀ opts, gatherLoop opts (l1 ++ line :: post) = gatherLoop opts (l1 ++ [line]) := by
  induction l1 with
  | nil =>
    intro opts
    simp [gatherLoop, hb, hc]
  | cons hd tl ih =>
    intro opts
    by_cases hb2 : rustTrim hd = []
    · simp only [List.cons_append, gatherLoop, hb2, if_true]
      exact ih opts
    · by_cases hc2 : startsWith strSlashSlash (rustTrimStart hd) = false
      · simp [List.cons_append, gatherLoop, hb2, hc2]
      · cases hm : matchOptionComment hd with
        | none =>
          have e1 : gatherLoop opts (hd :: (tl ++ line :: post)) = gatherLoop opts (tl ++ line :: post) := by
            simp [gatherLoop, hb2, hc2, hm]
          have e2 : gatherLoop opts (hd :: (tl ++ [line])) = gatherLoop opts (tl ++ [line]) := by
            simp [gatherLoop, hb2, hc2, hm]
          rw [List.cons_append, e1, List.cons_append, e2]
          exact ih opts
        | some opt =>
          cases hpf : processFragments opts (splitOnChar ';' opt) with
          | error e =>
            have e1 : gatherLoop opts (hd :: (tl ++ line :: post)) = Except.error e := by
              simp [gatherLoop, hb2, hc2, hm, hpf]
            have e2 : gatherLoop opts (hd :: (tl ++ [line])) = Except.error e := by
              simp [gatherLoop, hb2, hc2, hm, hpf]
            rw [List.cons_append, e1, List.cons_append, e2]
          | ok m =>
            have e1 : gatherLoop opts (hd :: (tl ++ line :: post)) = gatherLoop m (tl ++ line :: post) := by
              simp [gatherLoop, hb2, hc2, hm, hpf]
            have e2 : gatherLoop opts (hd :: (tl ++ [line])) = gatherLoop m (tl ++ [line]) := by
              simp [gatherLoop, hb2, hc2, hm, hpf]
            rw [List.cons_append, e1, List.cons_append, e2]
            exact ih m

/-- Claim C6: directive scanning stops at the first line that is neither
blank nor a comment line; whatever follows that line — in particular any
directive-shaped comment — contributes nothing to the result, which equals
the result of scanning with everything after that line removed. -/
theorem c6_scan_stops_at_first_code_line (content : Str) (l1 : List Str)
    {line : Str} (post : List Str)
    (hsplit : rustLines content = l1 ++ line :: post)
    (hb : ¬ rustTrim line = [])
    (hc : startsWith strSlashSlash (rustTrimStart line) = false) :
    gather_options content = gatherOptionsLines (l1 ++ [line]) := by
  rw [gather_options, hsplit, gatherOptionsLines, gatherOptionsLines]
  exact gatherLoop_stop_indep l1 post hb hc OptionsMap.empty


/-- Claim C9: names are taken verbatim with no whitespace trimming.  For
any value text, a fragment of the form `toolchain =...` splits at the
first equals sign into the untrimmed name `toolchain ` (trailing space),
which fails recognition, so fragment processing yields the unknown-option
error naming `toolchain `; in particular the directive line
`// rust-runner: toolchain = 1.70` makes the whole gathering fail with
that error instead of setting the toolchain. -/
theorem c9_no_whitespace_trimming :
    (∀ (opts : OptionsMap) (value : Str),
      processFragment opts (strToolchainSpace ++ '=' :: value) =
        Except.error (strUnknownOption ++ strToolchainSpace)) ∧
    gather_options ("// rust-runner: toolchain = 1.70".data) =
      Except.error (strUnknownOption ++ strToolchainSpace) := by
  constructor
  · intro opts value
    rfl
  · rfl

/-- Claim C4: dependency scanning is total (`parse_imports` is a function,
never an error), and for every source text the resulting set contains none
of the four reserved names, even when they appear in import-statement
position. -/
theorem c4_reserved_names_excluded (content : Str) :
    strStd ∉ parse_imports content ∧ strCrate ∉ parse_imports content ∧
    strSelf ∉ parse_imports content ∧ strSuper ∉ parse_imports content := by
  refine ⟨?_, ?_, ?_, ?_⟩ <;>
    simp [parse_imports, Finset.mem_erase, strStd, strCrate, strSelf, strSuper]

theorem seqT_ok {x : TraceRes} (y : TraceRes) (h : x.2 = Except.ok ()) :
    seqT x y = (x.1 ++ y.1, y.2) := by
  rcases x with ⟨tr, res⟩
  cases res with
  | error e => simp at h
  | ok u => rfl

theorem seqT_error {x : TraceRes} (y : TraceRes) {e : RErr} (h : x.2 = Except.error e) :
    seqT x y = (x.1, Except.error e) := by
  rcases x with ⟨tr, res⟩
  cases res with
  | error e2 => cases h; rfl
  | ok u => simp at h

theorem initStep_mem {o : Oracle} {ev : Event} (h : ev ∈ (initStep o).1) :
    ev = Event.cargoInit := by
  rcases hs : o.initStatus with e | b
  · simp [initStep, hs] at h; exact h
  · cases b <;> simp [initStep, hs] at h <;> exact h

theorem sccacheStep_mem {o : Oracle} {ev : Event} (h : ev ∈ (sccacheStep o).1) :
    ev = Event.createCargoDir ∨ ∃ p, ev = Event.writeCargoConfig p := by
  rcases hs : o.sccache with _ | path
  · simp [sccacheStep, hs] at h
  · rcases hd : o.createDirOk with e | u
    · simp [sccacheStep, hs, hd] at h
      exact Or.inl h
    · rcases hw : o.writeConfigOk with e | u <;>
        simp [sccacheStep, hs, hd, hw] at h <;>
        rcases h with h | h
      · exact Or.inl h
      · exact Or.inr ⟨path, h⟩
      · exact Or.inl h
      · exact Or.inr ⟨path, h⟩

theorem replaceMainStep_mem {o : Oracle} {c : String} {ev : Event}
    (h : ev ∈ (replaceMainStep o c).1) :
    ev = Event.removeMain ∨ ev = Event.createMain ∨ ev = Event.writeMain c := by
  rcases hr : o.removeMainOk with e | u
  · simp [replaceMainStep, hr] at h
    exact Or.inl h
  · rcases hc2 : o.createMainOk with e | u
    · simp [replaceMainStep, hr, hc2] at h
      rcases h with h | h
      · exact Or.inl h
      · exact Or.inr (Or.inl h)
    · rcases hw : o.writeMainOk with e | u <;>
        simp [replaceMainStep, hr, hc2, hw] at h <;>
        rcases h with h | h | h
      · exact Or.inl h
      · exact Or.inr (Or.inl h)
      · exact Or.inr (Or.inr h)
      · exact Or.inl h
      · exact Or.inr (Or.inl h)
      · exact Or.inr (Or.inr h)

theorem add_deps_mem {o : Oracle} {ev : Event} :
    ∀ {l : List String}, ev ∈ (add_deps o l).1 →
      ∃ dep ∈ l, ev = Event.diagAdding dep ∨ ev = Event.cargoAdd dep ∨
        ev = Event.diagAddFailed dep := by
  intro l
  induction l with
  | nil => intro h; simp [add_deps] at h
  | cons dep rest ih =>
    intro h
    rcases hs : o.addStatus dep with e | b
    · simp [add_deps, hs] at h
      rcases h with h | h
      · exact ⟨dep, List.mem_cons_self dep rest, Or.inl h⟩
      · exact ⟨dep, List.mem_cons_self dep rest, Or.inr (Or.inl h)⟩
    · cases b <;> simp [add_deps, hs] at h
      · rcases h with h | h | h | h
        · exact ⟨dep, List.mem_cons_self dep rest, Or.inl h⟩
        · exact ⟨dep, List.mem_cons_self dep rest, Or.inr (Or.inl h)⟩
        · exact ⟨dep, List.mem_cons_self dep rest, Or.inr (Or.inr h)⟩
        · rcases ih h with ⟨d2, hd2, hsh⟩
          exact ⟨d2, List.mem_cons_of_mem dep hd2, hsh⟩
      · rcases h with h | h | h
        · exact ⟨dep, List.mem_cons_self dep rest, Or.inl h⟩
        · exact ⟨dep, List.mem_cons_self dep rest, Or.inr (Or.inl h)⟩
        · rcases ih h with ⟨d2, hd2, hsh⟩
          exact ⟨d2, List.mem_cons_of_mem dep hd2, hsh⟩

theorem pinStep_fst (o : Oracle) (tc : String) :
    (pinStep o tc).1 = [Event.writeToolchain tc] := by
  rcases hs : o.writeToolchainOk with e | u <;> simp [pinStep, hs]

theorem run_project_fst (o : Oracle) : (run_project o).1 = [Event.cargoRun] := by
  rcases hs : o.runStatus with e | b
  · simp [run_project, hs]
  · cases b <;> simp [run_project, hs]

theorem noAddAfterPin_of_pinfree {l : List Event} (h : ∀ v, Event.writeToolchain v ∉ l) :
    noAddAfterPin l = true := by
  induction l with
  | nil => rfl
  | cons e r ih =>
    have hr : ∀ v, Event.writeToolchain v ∉ r := by
      intro v hv
      exact h v (List.mem_cons_of_mem e hv)
    cases e with
    | writeToolchain v => exact absurd (List.mem_cons_self _ r) (h v)
    | _ => simp only [noAddAfterPin]; exact ih hr

theorem noAddAfterPin_append {l1 l2 : List Event} (h : ∀ v, Event.writeToolchain v ∉ l1) :
    noAddAfterPin (l1 ++ l2) = noAddAfterPin l2 := by
  induction l1 with
  | nil => rfl
  | cons e r ih =>
    have hr : ∀ v, Event.writeToolchain v ∉ r := by
      intro v hv
      exact h v (List.mem_cons_of_mem e hv)
    cases e with
    | writeToolchain v => exact absurd (List.mem_cons_self _ r) (h v)
    | _ => simp only [List.cons_append, noAddAfterPin]; exact ih hr

theorem seqT_pin_decomp {tc : String} {x y : TraceRes}
    (hx : ∀ v, Event.writeToolchain v ∉ x.1)
    (hy : ∃ l, (∀ v, Event.writeToolchain v ∉ l) ∧
      (y.1 = l ∨ y.1 = l ++ [Event.writeToolchain tc]) ∧
      (y.2 = Except.ok () → y.1 = l ++ [Event.writeToolchain tc])) :
    ∃ l, (∀ v, Event.writeToolchain v ∉ l) ∧
      ((seqT x y).1 = l ∨ (seqT x y).1 = l ++ [Event.writeToolchain tc]) ∧
      ((seqT x y).2 = Except.ok () → (seqT x y).1 = l ++ [Event.writeToolchain tc]) := by
  rcases x with ⟨tr, res⟩
  cases res with
  | error e =>
    refine ⟨tr, hx, Or.inl rfl, ?_⟩
    intro h
    simp [seqT] at h
  | ok u =>
    rcases hy with ⟨l, hl, hd, hi⟩
    refine ⟨tr ++ l, ?_, ?_, ?_⟩
    · intro v hv
      rcases List.mem_append.mp hv with hv1 | hv2
      · exact hx v hv1
      · exact hl v hv2
    · rcases hd with hd | hd
      · exact Or.inl (by simp [seqT, hd])
      · exact Or.inr (by simp [seqT, hd])
    · intro h
      have : y.2 = Except.ok () := by simpa [seqT] using h
      simp [seqT, hi this]

theorem init_project_pin_decomp (o : Oracle) (c tc : String) (imports : List String) :
    ∃ l, (∀ v, Event.writeToolchain v ∉ l) ∧
      ((init_project o c tc imports).1 = l ∨
        (init_project o c tc imports).1 = l ++ [Event.writeToolchain tc]) ∧
      ((init_project o c tc imports).2 = Except.ok () →
        (init_project o c tc imports).1 = l ++ [Event.writeToolchain tc]) := by
  have hpin : ∃ l, (∀ v, Event.writeToolchain v ∉ l) ∧
      ((pinStep o tc).1 = l ∨ (pinStep o tc).1 = l ++ [Event.writeToolchain tc]) ∧
      ((pinStep o tc).2 = Except.ok () → (pinStep o tc).1 = l ++ [Event.writeToolchain tc]) := by
    refine ⟨[], ?_, Or.inr (by simp [pinStep_fst]), ?_⟩
    · intro v hv; simp at hv
    · intro _; simp [pinStep_fst]
  have hA : ∀ v, Event.writeToolchain v ∉ (add_deps o imports).1 := by
    intro v hv
    rcases add_deps_mem hv with ⟨dep, _, h | h | h⟩ <;> cases h
  have hR : ∀ v, Event.writeToolchain v ∉ (replaceMainStep o c).1 := by
    intro v hv
    rcases replaceMainStep_mem hv with h | h | h <;> cases h
  have hS : ∀ v, Event.writeToolchain v ∉ (sccacheStep o).1 := by
    intro v hv
    rcases sccacheStep_mem hv with h | ⟨p, h⟩ <;> cases h
  have hI : ∀ v, Event.writeToolchain v ∉ (initStep o).1 := by
    intro v hv
    cases initStep_mem hv
  exact seqT_pin_decomp hI (seqT_pin_decomp hS (seqT_pin_decomp hR
    (seqT_pin_decomp hA hpin)))

/-- Amended claim C1: the toolchain pin file is written as the final step
of project scaffolding, after the dependency-add loop, not before it: in
every run no dependency-add invocation occurs after the pin write, and
whenever scaffolding succeeds the pin file containing the resolved
toolchain value has been written (as the last scaffolding operation). -/
theorem c1_pin_written_after_adds (o : Oracle) (c tc : String) (imports : List String) :
    noAddAfterPin (init_project o c tc imports).1 = true ∧
    ((init_project o c tc imports).2 = Except.ok () →
      Event.writeToolchain tc ∈ (init_project o c tc imports).1) := by
  rcases init_project_pin_decomp o c tc imports with ⟨l, hl, hd, hi⟩
  constructor
  · rcases hd with hd | hd
    · rw [hd]; exact noAddAfterPin_of_pinfree hl
    · rw [hd, noAddAfterPin_append hl]; rfl
  · intro h
    rw [hi h]
    exact List.mem_append_right _ (List.mem_cons_self _ _)


/-- Counterexample to claim C1 as stated: on a fully succeeding run with
one dependency, the run reaches dependency installation (a dependency-add
invocation is in the trace), yet the pin write does not precede every
dependency-add invocation — the add comes first. -/
theorem c1_counterexample :
    Event.cargoAdd "rand" ∈ (init_project oracleAllOk "x" "stable" ["rand"]).1 ∧
    pinBeforeAdds (init_project oracleAllOk "x" "stable" ["rand"]).1 = false := by
  decide

theorem c1_pin_written_after_adds_witness :
    Event.writeToolchain "stable" ∈ (init_project oracleAllOk "x" "stable" ["rand"]).1 :=
  (c1_pin_written_after_adds oracleAllOk "x" "stable" ["rand"]).2 (by rfl)

/-- Claim C2: once the run has switched into the temporary directory, a
failure of the scaffolding or build-and-run sequence is captured, the
restoration of the original working directory runs, and only then is the
captured failure re-raised: the trace ends with the restoration event and
the surfaced result is exactly the captured error. -/
theorem c2_restore_before_error_surfaced (o : Oracle) (c tc : String)
    (imports : List String) (e : RErr)
    (h : (initAndRun o c tc imports).2 = Except.error e)
    (hr : o.restoreOk = Except.ok ()) :
    (mainAfterEnter o c tc imports).1 =
      (initAndRun o c tc imports).1 ++ [Event.restoreDir] ∧
    (mainAfterEnter o c tc imports).2 = Except.error e := by
  have hred : mainAfterEnter o c tc imports =
      ((initAndRun o c tc imports).1 ++ [Event.restoreDir],
        (initAndRun o c tc imports).2) := by
    simp only [mainAfterEnter, hr]
  rw [hred]
  exact ⟨rfl, h⟩


theorem c2_restore_before_error_surfaced_witness :
    (mainAfterEnter oracleInitFails "x" "stable" []).1 =
      (initAndRun oracleInitFails "x" "stable" []).1 ++ [Event.restoreDir] ∧
    (mainAfterEnter oracleInitFails "x" "stable" []).2 =
      Except.error (RErr.failMsg "failed to init cargo project.") :=
  c2_restore_before_error_surfaced oracleInitFails "x" "stable" [] _ (by rfl) (by rfl)

theorem add_deps_all_ok {o : Oracle} :
    ∀ {l : List String}, (∀ d ∈ l, ∃ b, o.addStatus d = Except.ok b) →
      (add_deps o l).2 = Except.ok () ∧
      (∀ d ∈ l, Event.cargoAdd d ∈ (add_deps o l).1) ∧
      (∀ d ∈ l, o.addStatus d = Except.ok false →
        Event.diagAddFailed d ∈ (add_deps o l).1) := by
  intro l
  induction l with
  | nil =>
    intro _
    refine ⟨rfl, ?_, ?_⟩ <;> intro d hd <;> simp at hd
  | cons dep rest ih =>
    intro h
    rcases h dep (List.mem_cons_self dep rest) with ⟨b, hb⟩
    have hrest := ih (fun d hd => h d (List.mem_cons_of_mem dep hd))
    cases b with
    | true =>
      refine ⟨by simp [add_deps, hb, hrest.1], ?_, ?_⟩
      · intro d hd
        rcases List.mem_cons.mp hd with hd | hd
        · subst hd; simp [add_deps, hb]
        · have hmem := hrest.2.1 d hd
          simp [add_deps, hb, hmem]
      · intro d hd hfail
        rcases List.mem_cons.mp hd with hd | hd
        · subst hd; rw [hb] at hfail; simp at hfail
        · have hmem := hrest.2.2 d hd hfail
          simp [add_deps, hb, hmem]
    | false =>
      refine ⟨by simp [add_deps, hb, hrest.1], ?_, ?_⟩
      · intro d hd
        rcases List.mem_cons.mp hd with hd | hd
        · subst hd; simp [add_deps, hb]
        · have hmem := hrest.2.1 d hd
          simp [add_deps, hb, hmem]
      · intro d hd hfail
        rcases List.mem_cons.mp hd with hd | hd
        · subst hd; simp [add_deps, hb]
        · have hmem := hrest.2.2 d hd hfail
          simp [add_deps, hb, hmem]

theorem initStep_eq {o : Oracle} (h : o.initStatus = Except.ok true) :
    initStep o = ([Event.cargoInit], Except.ok ()) := by
  simp [initStep, h]

theorem sccacheStep_snd {o : Oracle}
    (h : o.sccache = none ∨ (o.createDirOk = Except.ok () ∧ o.writeConfigOk = Except.ok ())) :
    (sccacheStep o).2 = Except.ok () := by
  rcases h with h | ⟨h1, h2⟩
  · simp [sccacheStep, h]
  · rcases hs : o.sccache with _ | path
    · simp [sccacheStep, hs]
    · simp [sccacheStep, hs, h1, h2]

theorem replaceMainStep_snd {o : Oracle} {c : String}
    (h1 : o.removeMainOk = Except.ok ()) (h2 : o.createMainOk = Except.ok ())
    (h3 : o.writeMainOk = Except.ok ()) :
    (replaceMainStep o c).2 = Except.ok () := by
  simp [replaceMainStep, h1, h2, h3]

theorem pinStep_eq {o : Oracle} (tc : String) (h : o.writeToolchainOk = Except.ok ()) :
    pinStep o tc = ([Event.writeToolchain tc], Except.ok ()) := by
  simp [pinStep, h]

/-- Claim C5: a dependency whose dependency-add invocation returns a
non-success exit status gets a diagnostic naming it and does not stop the
pipeline: provided the scaffolding operations themselves succeed and no
dependency-add spawn fails at the operating-system level, scaffolding
completes successfully, every dependency in the set is attempted, every
failing dependency is named by a diagnostic, and the run step is still
executed. -/
theorem c5_dep_add_failure_tolerated (o : Oracle) (c tc : String) (imports : List String)
    (hinit : o.initStatus = Except.ok true)
    (hsc : o.sccache = none ∨ (o.createDirOk = Except.ok () ∧ o.writeConfigOk = Except.ok ()))
    (hrm : o.removeMainOk = Except.ok ()) (hcm : o.createMainOk = Except.ok ())
    (hwm : o.writeMainOk = Except.ok ()) (hpin : o.writeToolchainOk = Except.ok ())
    (hadd : ∀ d ∈ imports, ∃ b, o.addStatus d = Except.ok b) :
    (init_project o c tc imports).2 = Except.ok () ∧
    (∀ d ∈ imports, Event.cargoAdd d ∈ (initAndRun o c tc imports).1) ∧
    (∀ d ∈ imports, o.addStatus d = Except.ok false →
      Event.diagAddFailed d ∈ (initAndRun o c tc imports).1) ∧
    Event.cargoRun ∈ (initAndRun o c tc imports).1 := by
  have hA := add_deps_all_ok hadd
  have e1 : seqT (add_deps o imports) (pinStep o tc) =
      ((add_deps o imports).1 ++ (pinStep o tc).1, (pinStep o tc).2) :=
    seqT_ok _ hA.1
  have e2 : seqT (replaceMainStep o c) (seqT (add_deps o imports) (pinStep o tc)) =
      ((replaceMainStep o c).1 ++ ((add_deps o imports).1 ++ (pinStep o tc).1),
        (pinStep o tc).2) := by
    rw [seqT_ok _ (replaceMainStep_snd hrm hcm hwm), e1]
  have e3 : seqT (sccacheStep o)
      (seqT (replaceMainStep o c) (seqT (add_deps o imports) (pinStep o tc))) =
      ((sccacheStep o).1 ++ ((replaceMainStep o c).1 ++
        ((add_deps o imports).1 ++ (pinStep o tc).1)), (pinStep o tc).2) := by
    rw [seqT_ok _ (sccacheStep_snd hsc), e2]
  have e4 : init_project o c tc imports =
      ([Event.cargoInit] ++ ((sccacheStep o).1 ++ ((replaceMainStep o c).1 ++
        ((add_deps o imports).1 ++ (pinStep o tc).1))), (pinStep o tc).2) := by
    rw [init_project, initStep_eq hinit, seqT_ok _ (by rfl), e3]
  have hpinr := pinStep_eq tc hpin
  have hok : (init_project o c tc imports).2 = Except.ok () := by
    rw [e4, hpinr]
  have e5 : initAndRun o c tc imports =
      ((init_project o c tc imports).1 ++ (run_project o).1, (run_project o).2) := by
    rw [initAndRun, seqT_ok _ hok]
  refine ⟨hok, ?_, ?_, ?_⟩
  · intro d hd
    rw [e5]
    apply List.mem_append_left
    rw [e4]
    simp only []
    apply List.mem_append_right
    apply List.mem_append_right
    apply List.mem_append_right
    exact List.mem_append_left _ (hA.2.1 d hd)
  · intro d hd hfail
    rw [e5]
    apply List.mem_append_left
    rw [e4]
    simp only []
    apply List.mem_append_right
    apply List.mem_append_right
    apply List.mem_append_right
    exact List.mem_append_left _ (hA.2.2 d hd hfail)
  · rw [e5]
    apply List.mem_append_right
    rw [run_project_fst]
    exact List.mem_cons_self _ _


theorem c5_dep_add_failure_tolerated_witness :
    Event.diagAddFailed "bad" ∈ (initAndRun oracleOneAddFails "x" "stable" ["bad", "good"]).1 ∧
    Event.cargoAdd "good" ∈ (initAndRun oracleOneAddFails "x" "stable" ["bad", "good"]).1 ∧
    Event.cargoRun ∈ (initAndRun oracleOneAddFails "x" "stable" ["bad", "good"]).1 := by
  have h := c5_dep_add_failure_tolerated oracleOneAddFails "x" "stable" ["bad", "good"]
    rfl (Or.inl rfl) rfl rfl rfl rfl
    (by
      intro d hd
      rcases List.mem_cons.mp hd with hd | hd
      · exact ⟨false, by rw [hd]; rfl⟩
      · rcases List.mem_cons.mp hd with hd | hd
        · exact ⟨true, by rw [hd]; rfl⟩
        · simp at hd)
  exact ⟨h.2.2.1 "bad" (by simp) (by rfl), h.2.1 "good" (by simp), h.2.2.2⟩

theorem add_deps_spawn_error {o : Oracle} {d : String} {e : OsError}
    (hd : o.addStatus d = Except.error e) :
    ∀ {pre : List String}, (∀ x ∈ pre, ∃ b, o.addStatus x = Except.ok b) →
      ∀ (post : List String),
        (add_deps o (pre ++ d :: post)).2 = Except.error (RErr.os e) ∧
        Event.cargoAdd d ∈ (add_deps o (pre ++ d :: post)).1 := by
  intro pre
  induction pre with
  | nil =>
    intro _ post
    constructor
    · simp [add_deps, hd]
    · simp [add_deps, hd]
  | cons x rest ih =>
    intro hpre post
    rcases hpre x (List.mem_cons_self x rest) with ⟨b, hb⟩
    have hih := ih (fun y hy => hpre y (List.mem_cons_of_mem x hy)) post
    cases b with
    | true =>
      constructor
      · simp [add_deps, hb, hih.1]
      · simp [add_deps, hb, hih.2]
    | false =>
      constructor
      · simp [add_deps, hb, hih.1]
      · simp [add_deps, hb, hih.2]

theorem add_deps_diagFailed_status {o : Oracle} {x : String} :
    ∀ {l : List String}, Event.diagAddFailed x ∈ (add_deps o l).1 →
      o.addStatus x = Except.ok false := by
  intro l
  induction l with
  | nil => intro h; simp [add_deps] at h
  | cons dep rest ih =>
    intro h
    rcases hs : o.addStatus dep with e | b
    · simp [add_deps, hs] at h
    · cases b <;> simp [add_deps, hs] at h
      · rcases h with h | h
        · rw [h]; exact hs
        · exact ih h
      · exact ih h

/-- Claim C10: failure tolerance covers only non-success exit statuses.
When spawning the dependency-add process for a dependency fails with an
operating-system error (all earlier dependency-adds having spawned), that
error propagates out of the scaffolding step unchanged and aborts the
whole run: the build-and-run step is never invoked and no
logged-and-skipped diagnostic is emitted for that dependency. -/
theorem c10_spawn_error_aborts (o : Oracle) (c tc : String)
    (pre post : List String) (d : String) (e : OsError)
    (hinit : o.initStatus = Except.ok true)
    (hsc : o.sccache = none ∨ (o.createDirOk = Except.ok () ∧ o.writeConfigOk = Except.ok ()))
    (hrm : o.removeMainOk = Except.ok ()) (hcm : o.createMainOk = Except.ok ())
    (hwm : o.writeMainOk = Except.ok ())
    (hpre : ∀ x ∈ pre, ∃ b, o.addStatus x = Except.ok b)
    (hd : o.addStatus d = Except.error e) :
    (initAndRun o c tc (pre ++ d :: post)).2 = Except.error (RErr.os e) ∧
    Event.cargoAdd d ∈ (initAndRun o c tc (pre ++ d :: post)).1 ∧
    Event.cargoRun ∉ (initAndRun o c tc (pre ++ d :: post)).1 ∧
    Event.diagAddFailed d ∉ (initAndRun o c tc (pre ++ d :: post)).1 := by
  have hA := add_deps_spawn_error hd hpre post
  have e1 : seqT (add_deps o (pre ++ d :: post)) (pinStep o tc) =
      ((add_deps o (pre ++ d :: post)).1, Except.error (RErr.os e)) :=
    seqT_error _ hA.1
  have e2 : seqT (replaceMainStep o c)
      (seqT (add_deps o (pre ++ d :: post)) (pinStep o tc)) =
      ((replaceMainStep o c).1 ++ (add_deps o (pre ++ d :: post)).1,
        Except.error (RErr.os e)) := by
    rw [seqT_ok _ (replaceMainStep_snd hrm hcm hwm), e1]
  have e3 : seqT (sccacheStep o) (seqT (replaceMainStep o c)
      (seqT (add_deps o (pre ++ d :: post)) (pinStep o tc))) =
      ((sccacheStep o).1 ++ ((replaceMainStep o c).1 ++ (add_deps o (pre ++ d :: post)).1),
        Except.error (RErr.os e)) := by
    rw [seqT_ok _ (sccacheStep_snd hsc), e2]
  have e4 : init_project o c tc (pre ++ d :: post) =
      ([Event.cargoInit] ++ ((sccacheStep o).1 ++ ((replaceMainStep o c).1 ++
        (add_deps o (pre ++ d :: post)).1)), Except.error (RErr.os e)) := by
    rw [init_project, initStep_eq hinit, seqT_ok _ (by rfl), e3]
  have e5 : initAndRun o c tc (pre ++ d :: post) =
      ([Event.cargoInit] ++ ((sccacheStep o).1 ++ ((replaceMainStep o c).1 ++
        (add_deps o (pre ++ d :: post)).1)), Except.error (RErr.os e)) := by
    rw [initAndRun, seqT_error (run_project o) (x := init_project o c tc (pre ++ d :: post))
      (by rw [e4])]
    rw [e4]
  refine ⟨by rw [e5], ?_, ?_, ?_⟩
  · rw [e5]
    apply List.mem_append_right
    apply List.mem_append_right
    exact List.mem_append_right _ hA.2
  · intro hmem
    rw [e5] at hmem
    simp only [List.mem_append] at hmem
    rcases hmem with hmem | hmem | hmem | hmem
    · simp at hmem
    · rcases sccacheStep_mem hmem with h | ⟨p, h⟩ <;> cases h
    · rcases replaceMainStep_mem hmem with h | h | h <;> cases h
    · rcases add_deps_mem hmem with ⟨dep, _, h | h | h⟩ <;> cases h
  · intro hmem
    rw [e5] at hmem
    simp only [List.mem_append] at hmem
    rcases hmem with hmem | hmem | hmem | hmem
    · simp at hmem
    · rcases sccacheStep_mem hmem with h | ⟨p, h⟩ <;> cases h
    · rcases replaceMainStep_mem hmem with h | h | h <;> cases h
    · have := add_deps_diagFailed_status hmem
      rw [hd] at this
      cases this

theorem c6_scan_stops_at_first_code_line_witness :
    gather_options ("// rust-runner: toolchain=a\nfn main()\n// rust-runner: toolchain=b".data) =
      gatherOptionsLines ["// rust-runner: toolchain=a".data, "fn main()".data] :=
  c6_scan_stops_at_first_code_line
    ("// rust-runner: toolchain=a\nfn main()\n// rust-runner: toolchain=b".data)
    ["// rust-runner: toolchain=a".data]
    ["// rust-runner: toolchain=b".data]
    (by decide) (by decide) (by decide)

theorem c7_gather_options_last_write_wins_witness :
    gather_options ("// rust-runner: toolchain=a;toolchain=b".data) =
      Except.ok (fun t =>
        lastValue t (allFrags (rustLines ("// rust-runner: toolchain=a;toolchain=b".data)))) :=
  c7_gather_options_last_write_wins
    ("// rust-runner: toolchain=a;toolchain=b".data) (by decide)

theorem c8_toolchain_defaults_to_stable_witness :
    parse_toolchain OptionsMap.empty = strStable :=
  c8_toolchain_defaults_to_stable ("fn main()".data) OptionsMap.empty
    (by decide) (by rfl)


theorem c10_spawn_error_aborts_witness :
    (initAndRun oracleSpawnErr "x" "stable" (["good"] ++ "boom" :: ["later"])).2 =
      Except.error (RErr.os (OsError.code 5)) ∧
    Event.cargoRun ∉ (initAndRun oracleSpawnErr "x" "stable" (["good"] ++ "boom" :: ["later"])).1 := by
  have h := c10_spawn_error_aborts oracleSpawnErr "x" "stable" ["good"] ["later"]
    "boom" (OsError.code 5) rfl (Or.inl rfl) rfl rfl rfl
    (by
      intro x hx
      rcases List.mem_singleton.mp hx with rfl
      exact ⟨true, rfl⟩)
    rfl
  exact ⟨h.1, h.2.2.1⟩
